import Mathlib

/-!
Verification of the cluster-expansion engine of `pycce/cluster_expansion.py`.

The engine aggregates per-cluster contributions over a hierarchy of clusters
(`subclusters`, a mapping from order to a table of index rows), correcting for
subset containment between clusters of different orders.  Two variants exist:

* `cluster_expansion_decorator` (variant A, `expand_power`): computes an integer
  inclusion/exclusion exponent per cluster, processing orders highest to lowest,
  and folds `contribution ^ exponent` into the running result;
* `cluster_expansion_direct_decorator` (variant B, `expand_direct`): processes
  orders lowest to highest, dividing each raw contribution by the aggregated
  corrected ("tilde") values of the already-processed contained clusters.

The Python dict `{order: table}` is embedded as the association list of its
key/value pairs sorted by key (the source iterates `sorted(subclusters)`).
The default operators `operator.imul`, `operator.ipow`, `operator.itruediv`,
`numpy.prod` are the multiplication, integer power, division and list product
of a `DivisionCommMonoid` (for the numeric instances, `ℚ`).
-/

namespace PyCCE

/-- A cluster table: one row of member indices per cluster of a given order. -/
abbrev Table := List (List ℕ)

/-- Containment test of variant A (lines 76–77 of the source): a container row
`u` contains the current cluster `v` when the number of entries of `u` lying in
`v` (`np.count_nonzero(np.isin(u, v))`) equals `v.size`. -/
def containsA (u v : List ℕ) : Bool :=
  (u.countP (fun x => decide (x ∈ v))) == v.length

/-- Containment test of variant B (line 173 of the source): a candidate row `u`
is fully contained in the current cluster `v` when all entries of `u` lie in
`v` (`np.all(np.isin(u, v))`). -/
def containsB (u v : List ℕ) : Bool :=
  u.all (fun x => decide (x ∈ v))

/-- Row-wise (batched) form of the variant-A containment test: one boolean per
row of the table of potential containers, as produced by the vectorized
`np.count_nonzero(np.isin(subclusters[higherorder], v), axis=1) == v.size`. -/
def containsBatchA (t : Table) (v : List ℕ) : List Bool :=
  t.map (fun u => containsA u v)

/-- Row-wise (batched) form of the variant-B containment test: one boolean per
row of the table of candidates, as produced by the vectorized
`np.all(np.isin(subclusters[lowerorder], v), axis=1)`. -/
def containsBatchB (t : Table) (v : List ℕ) : List Bool :=
  t.map (fun u => containsB u v)

/-- Exponent assigned to a cluster `v` by variant A (lines 57, 76–82): starting
from `1`, for every already-processed (higher) order the exponents of the rows
containing `v` are subtracted (`power[order][index] -= np.sum(power[higherorder][containv])`).
`visited` is the list of already-processed tables paired with their finalized
exponent lists, in processing order. -/
def powerOf (visited : List (Table × List ℤ)) (v : List ℕ) : ℤ :=
  1 - (visited.map (fun tp =>
        ((tp.1.zip tp.2).map (fun up => if containsA up.1 v then up.2 else 0)).sum)).sum

/-- Generic per-order accumulation: process the tables in order, appending for
each table one entry computed from the already-accumulated entries.  Both the
`power` dict of variant A and the `result_tilda` dict of variant B are built
this way. -/
def buildAux {σ : Type} (step : List σ → Table → σ) : List Table → List σ → List σ
  | [], visited => visited
  | t :: rest, visited => buildAux step rest (visited ++ [step visited t])

/-- The per-order exponent tables built by variant A, in processing order
(highest order first).  Mirrors the construction of the `power` dict of the
source, independently of the numeric result. -/
def buildPow : List Table → List (Table × List ℤ) → List (Table × List ℤ) :=
  buildAux (fun visited t => (t, t.map (powerOf visited)))

variable {M : Type} [DivisionCommMonoid M] {α : Type} [Inhabited α]

/-- Main loop of variant A (lines 56–90): for each order (tables given in
processing order, highest first) compute the exponent row, then fold
`F v ^ power` into the running result with the default `result_operator`
(multiplication).  Returns the final `power` tables together with the result. -/
def expandPowerLoop (F : List ℕ → M) :
    List Table → List (Table × List ℤ) → M → List (Table × List ℤ) × M
  | [], visited, r => (visited, r)
  | t :: rest, visited, r =>
      let ps := t.map (powerOf visited)
      expandPowerLoop F rest (visited ++ [(t, ps)])
        ((t.zip ps).foldl (fun a vp => a * F vp.1 ^ vp.2) r)

/-- Variant A, `cluster_expansion` of `cluster_expansion_decorator`
(lines 25–95) with the default operators.  `subclusters` is the dict
`{order: table}` as a key-sorted association list.  The fast path (lines
45–48) fires when there is a single order with a single cluster; otherwise the
tables are processed in reverse (highest order first) starting from the seed
`contribution_operator(1, 0) = 1 ** 0`.  The callback receives the raw index
row and the full spin array. -/
def expand_power (F : List ℕ → List α → M)
    (subclusters : List (ℕ × Table)) (allspin : List α) : M :=
  if subclusters.length = 1 ∧ (subclusters.headI.2).length = 1 then
    F subclusters.headI.2.headI allspin
  else
    (expandPowerLoop (fun v => F v allspin) ((subclusters.map Prod.snd).reverse) []
      ((1 : M) ^ (0 : ℤ))).2

/-- The sub-array `allnspin[v]` produced by numpy fancy indexing with the index
row `v` (out-of-range indices, which the source never produces for well-formed
input, yield the default element). -/
def sel (allspin : List α) (v : List ℕ) : List α :=
  v.map (fun i => allspin.getD i default)

/-- Corrected ("tilde") value of a cluster `v` in variant B (lines 170–175):
starting from the raw contribution `F v`, for each already-processed (lower)
order in turn, divide (`removal_operator`) by the product (`addition_operator`,
default `np.prod`) of the stored tilde values of that order's rows fully
contained in `v`.  `visited` is the list of already-processed tables paired
with their tilde lists, in processing order. -/
def tildeOf (F : List ℕ → M) (visited : List (Table × List M)) (v : List ℕ) : M :=
  visited.foldl
    (fun acc tp =>
      acc / ((tp.1.zip tp.2).map (fun ut => if containsB ut.1 v then ut.2 else 1)).prod)
    (F v)

/-- The per-order tilde tables built by variant B, in processing order (lowest
order first).  Mirrors the construction of the `result_tilda` dict. -/
def buildTilde (F : List ℕ → M) : List Table → List (Table × List M) → List (Table × List M) :=
  buildAux (fun visited t => (t, t.map (tildeOf F visited)))

/-- Main loop of variant B (lines 163–183): for each order (tables given in
processing order, lowest first) compute the tilde row, fold each tilde value
into the running result with the default `result_operator` (multiplication),
and store the row for use by higher orders. -/
def expandDirectLoop (F : List ℕ → M) :
    List Table → List (Table × List M) → M → List (Table × List M) × M
  | [], visited, r => (visited, r)
  | t :: rest, visited, r =>
      let tl := t.map (tildeOf F visited)
      expandDirectLoop F rest (visited ++ [(t, tl)]) (tl.foldl (fun a x => a * x) r)

/-- Variant B, `cluster_expansion` of `cluster_expansion_direct_decorator`
(lines 130–185) with the default operators.  Same fast path as variant A; the
general path processes the tables in ascending key order.  The callback only
ever receives the pre-indexed sub-array `allnspin[v]`.  The source seeds the
accumulator with the integer expression `1 - result_operator(1, 0)`, which for
the default operators evaluates to the multiplicative identity; it is embedded
as `1`. -/
def expand_direct (F : List α → M)
    (subclusters : List (ℕ × Table)) (allnspin : List α) : M :=
  if subclusters.length = 1 ∧ (subclusters.headI.2).length = 1 then
    F (sel allnspin subclusters.headI.2.headI)
  else
    (expandDirectLoop (fun v => F (sel allnspin v)) (subclusters.map Prod.snd) [] 1).2

/-- Main loop of variant A with the external memoization hook `_smc` made
explicit: the callback reads and returns the hook state (modelled as a list of
cache entries), which is threaded through the per-cluster invocations. -/
def expandPowerLoopSMC (F : List ℕ → List ℕ → M × List ℕ) :
    List Table → List (Table × List ℤ) → M → List ℕ → List (Table × List ℤ) × M × List ℕ
  | [], visited, r, smc => (visited, r, smc)
  | t :: rest, visited, r, smc =>
      let ps := t.map (powerOf visited)
      let step := (t.zip ps).foldl
        (fun a vp =>
          let fr := F vp.1 a.2
          (a.1 * fr.1 ^ vp.2, fr.2)) (r, smc)
      expandPowerLoopSMC F rest (visited ++ [(t, ps)]) step.1 step.2

/-- Variant A with the process-wide memoization hook `_smc` modelled as
explicit state.  On the general path the hook is emptied just before returning
(`_smc.clear()`, line 93); the single-cluster fast path (line 48) returns the
callback's value and hook state without clearing. -/
def expand_power_smc (F : List ℕ → List α → List ℕ → M × List ℕ)
    (subclusters : List (ℕ × Table)) (allspin : List α) (smc : List ℕ) : M × List ℕ :=
  if subclusters.length = 1 ∧ (subclusters.headI.2).length = 1 then
    F subclusters.headI.2.headI allspin smc
  else
    ((expandPowerLoopSMC (fun v c => F v allspin c) ((subclusters.map Prod.snd).reverse) []
        ((1 : M) ^ (0 : ℤ)) smc).2.1, [])

theorem list_foldl_mul_map {N : Type} [Monoid N] {β : Type} (g : β → N) (l : List β) (r : N) :
    l.foldl (fun a x => a * g x) r = r * (l.map g).prod := by
  induction l generalizing r with
  | nil => simp
  | cons x xs ih => simp [ih, mul_assoc]

theorem list_foldl_mul {N : Type} [Monoid N] (l : List N) (r : N) :
    l.foldl (fun a x => a * x) r = r * l.prod := by
  simpa using list_foldl_mul_map id l r

theorem getD_take_succ {σ : Type} (l : List σ) (n : ℕ) (d : σ) :
    (l.take (n + 1)).getD n d = l.getD n d := by
  rcases Nat.lt_or_ge n l.length with h | h
  · rw [List.getD_eq_getElem _ _ (by simp; omega), List.getD_eq_getElem _ _ h]
    simp [List.getElem_take]
  · rw [List.getD_eq_default _ _ (by simp; omega), List.getD_eq_default _ _ (by omega)]

theorem getD_append_self {σ : Type} (v : List σ) (e d : σ) :
    (v ++ [e]).getD v.length d = e := by
  induction v with
  | nil => rfl
  | cons x xs ih => simp [ih]

/-! Structure of the accumulated per-order tables. -/

theorem buildAux_nil {σ : Type} (step : List σ → Table → σ) (visited : List σ) :
    buildAux step [] visited = visited := rfl

theorem buildAux_cons {σ : Type} (step : List σ → Table → σ) (t : Table)
    (rest : List Table) (visited : List σ) :
    buildAux step (t :: rest) visited = buildAux step rest (visited ++ [step visited t]) := rfl

theorem buildAux_take {σ : Type} (step : List σ → Table → σ) (ts : List Table)
    (visited : List σ) :
    (buildAux step ts visited).take visited.length = visited := by
  induction ts generalizing visited with
  | nil => exact List.take_length visited
  | cons t rest ih =>
      rw [buildAux_cons]
      have hlen : (visited ++ [step visited t]).length = visited.length + 1 := by simp
      have hmin : visited.length = min visited.length (visited ++ [step visited t]).length := by
        rw [hlen]; omega
      rw [hmin, ← List.take_take, ih (visited ++ [step visited t]), List.take_left]

theorem buildAux_getD {σ : Type} (step : List σ → Table → σ) (ts : List Table)
    (visited : List σ) (k : ℕ) (hk : k < ts.length) (d : σ) :
    (buildAux step ts visited).getD (visited.length + k) d
      = step ((buildAux step ts visited).take (visited.length + k)) (ts.getD k []) := by
  induction ts generalizing visited k with
  | nil => exact absurd hk (by simp)
  | cons t rest ih =>
      rw [buildAux_cons]
      cases k with
      | zero =>
          have htake : (buildAux step rest (visited ++ [step visited t])).take
              (visited.length + 1) = visited ++ [step visited t] := by
            have h := buildAux_take step rest (visited ++ [step visited t])
            simpa using h
          have hget : (buildAux step rest (visited ++ [step visited t])).getD
              visited.length d = step visited t := by
            rw [← getD_take_succ _ visited.length d, htake, getD_append_self]
          have htake0 : (buildAux step rest (visited ++ [step visited t])).take
              visited.length = visited := by
            have hmin : visited.length = min visited.length (visited.length + 1) := by omega
            rw [hmin, ← List.take_take, htake]
            exact List.take_left visited [step visited t]
          simpa [htake0] using hget
      | succ k2 =>
          have hlen : (visited ++ [step visited t]).length = visited.length + 1 := by simp
          have h := ih (visited ++ [step visited t]) k2 (by simpa using hk)
          rw [hlen] at h
          have harith : visited.length + (k2 + 1) = visited.length + 1 + k2 := by omega
          rw [harith, h]
          simp

theorem buildAux_map_fst {σ : Type} (f : List (Table × σ) → Table → σ)
    (ts : List Table) (visited : List (Table × σ)) :
    (buildAux (fun vis t => (t, f vis t)) ts visited).map Prod.fst
      = visited.map Prod.fst ++ ts := by
  induction ts generalizing visited with
  | nil => simp [buildAux_nil]
  | cons t rest ih =>
      rw [buildAux_cons, ih]
      simp

theorem buildAux_drop_cons {σ : Type} (step : List σ → Table → σ) (t : Table)
    (rest : List Table) (visited : List σ) :
    (buildAux step rest (visited ++ [step visited t])).drop visited.length
      = step visited t ::
        (buildAux step rest (visited ++ [step visited t])).drop (visited.length + 1) := by
  have htake : (buildAux step rest (visited ++ [step visited t])).take
      (visited.length + 1) = visited ++ [step visited t] := by
    have h := buildAux_take step rest (visited ++ [step visited t])
    simpa using h
  conv_lhs =>
    rw [← List.take_append_drop (visited.length + 1)
      (buildAux step rest (visited ++ [step visited t])), htake, List.append_assoc]
  rw [List.drop_left]
  rfl

/-! The loops of the two variants, characterized through the accumulated
tables `buildPow` and `buildTilde`. -/

theorem expandDirectLoop_fst {N : Type} [DivisionCommMonoid N] (F : List ℕ → N)
    (ts : List Table) (visited : List (Table × List N)) (r : N) :
    (expandDirectLoop F ts visited r).1 = buildTilde F ts visited := by
  induction ts generalizing visited r with
  | nil => rfl
  | cons t rest ih => rw [expandDirectLoop, buildTilde, buildAux_cons, ← buildTilde, ih]

theorem expandDirectLoop_snd {N : Type} [DivisionCommMonoid N] (F : List ℕ → N)
    (ts : List Table) (visited : List (Table × List N)) (r : N) :
    (expandDirectLoop F ts visited r).2
      = r * (((buildTilde F ts visited).drop visited.length).map
          (fun tp => tp.2.prod)).prod := by
  induction ts generalizing visited r with
  | nil => simp [expandDirectLoop, buildTilde, buildAux_nil]
  | cons t rest ih =>
      rw [expandDirectLoop, buildTilde, buildAux_cons, ← buildTilde]
      rw [ih]
      have hdrop := buildAux_drop_cons (fun visited t => (t, t.map (tildeOf F visited))) t rest visited
      rw [buildTilde, hdrop]
      rw [List.map_cons, List.prod_cons, list_foldl_mul]
      have hlen : (visited ++ [(t, t.map (tildeOf F visited))]).length = visited.length + 1 := by
        simp
      rw [hlen, mul_assoc]

/-! The containment tests decide set containment. -/

theorem containsA_iff {u v : List ℕ} (hu : u.Nodup) (hv : v.Nodup) :
    containsA u v = true ↔ v ⊆ u := by
  rw [containsA, beq_iff_eq, List.countP_eq_length_filter]
  have hmemw : ∀ x, x ∈ u.filter (fun x => decide (x ∈ v)) ↔ x ∈ u ∧ x ∈ v := by
    intro x
    rw [List.mem_filter, decide_eq_true_iff]
  have hndw : (u.filter (fun x => decide (x ∈ v))).Nodup := hu.filter _
  constructor
  · intro hlen
    have hsub : (u.filter (fun x => decide (x ∈ v))).toFinset ⊆ v.toFinset := by
      intro x hx
      rw [List.mem_toFinset] at hx
      rw [List.mem_toFinset]
      exact ((hmemw x).mp hx).2
    have hcard : v.toFinset.card ≤ (u.filter (fun x => decide (x ∈ v))).toFinset.card := by
      rw [List.toFinset_card_of_nodup hndw, List.toFinset_card_of_nodup hv, hlen]
    have heq := Finset.eq_of_subset_of_card_le hsub hcard
    intro x hx
    have hx2 : x ∈ (u.filter (fun x => decide (x ∈ v))).toFinset := by
      rw [heq, List.mem_toFinset]
      exact hx
    rw [List.mem_toFinset] at hx2
    exact ((hmemw x).mp hx2).1
  · intro hsub
    have heq : (u.filter (fun x => decide (x ∈ v))).toFinset = v.toFinset := by
      ext x
      rw [List.mem_toFinset, List.mem_toFinset, hmemw]
      exact ⟨fun h => h.2, fun h => ⟨hsub h, h⟩⟩
    have := congrArg Finset.card heq
    rw [List.toFinset_card_of_nodup hndw, List.toFinset_card_of_nodup hv] at this
    exact this

theorem containsB_iff {u v : List ℕ} : containsB u v = true ↔ u ⊆ v := by
  rw [containsB, List.all_eq_true]
  constructor
  · intro h x hx
    have := h x hx
    rwa [decide_eq_true_iff] at this
  · intro h x hx
    rw [decide_eq_true_iff]
    exact h hx

theorem subset_antisymm_of_length {u v : List ℕ} (hu : u.Nodup) (hv : v.Nodup)
    (hlen : u.length = v.length) (h : v ⊆ u) : u ⊆ v := by
  have h1 : v.toFinset ⊆ u.toFinset := by
    intro x hx
    rw [List.mem_toFinset] at hx
    rw [List.mem_toFinset]
    exact h hx
  have h2 : u.toFinset.card ≤ v.toFinset.card := by
    rw [List.toFinset_card_of_nodup hu, List.toFinset_card_of_nodup hv, hlen]
  have heq := Finset.eq_of_subset_of_card_le h1 h2
  intro x hx
  have : x ∈ v.toFinset := by
    rw [heq, List.mem_toFinset]
    exact hx
  rwa [List.mem_toFinset] at this

/-! Congruence of the loops in the per-cluster callback. -/

theorem foldl_mul_pow_congr {N : Type} [DivisionCommMonoid N] (F F2 : List ℕ → N)
    (t : Table) (ps : List ℤ) (r : N) (h : ∀ v ∈ t, F v = F2 v) :
    (t.zip ps).foldl (fun a vp => a * F vp.1 ^ vp.2) r
      = (t.zip ps).foldl (fun a vp => a * F2 vp.1 ^ vp.2) r := by
  induction t generalizing ps r with
  | nil => rfl
  | cons x xs ih =>
      cases ps with
      | nil => rfl
      | cons p pp =>
          rw [List.zip_cons_cons, List.foldl_cons, List.foldl_cons,
            h x (List.mem_cons_self x xs)]
          exact ih pp _ (fun v hv => h v (List.mem_cons_of_mem x hv))

theorem expandPowerLoop_congr {N : Type} [DivisionCommMonoid N] (F F2 : List ℕ → N)
    (ts : List Table) (visited : List (Table × List ℤ)) (r : N)
    (h : ∀ v ∈ ts.flatten, F v = F2 v) :
    expandPowerLoop F ts visited r = expandPowerLoop F2 ts visited r := by
  induction ts generalizing visited r with
  | nil => rfl
  | cons t rest ih =>
      rw [expandPowerLoop, expandPowerLoop]
      rw [foldl_mul_pow_congr F F2 _ _ _
        (fun v hv => h v (List.mem_flatten.mpr ⟨t, List.mem_cons_self t rest, hv⟩))]
      exact ih _ _ (fun v hv => by
        rw [List.mem_flatten] at hv
        obtain ⟨l, hl, hvl⟩ := hv
        exact h v (List.mem_flatten.mpr ⟨l, List.mem_cons_of_mem t hl, hvl⟩))

theorem tildeOf_congr {N : Type} [DivisionCommMonoid N] (F F2 : List ℕ → N)
    (visited : List (Table × List N)) (v : List ℕ) (h : F v = F2 v) :
    tildeOf F visited v = tildeOf F2 visited v := by
  rw [tildeOf, tildeOf, h]

theorem expandDirectLoop_congr {N : Type} [DivisionCommMonoid N] (F F2 : List ℕ → N)
    (ts : List Table) (visited : List (Table × List N)) (r : N)
    (h : ∀ v ∈ ts.flatten, F v = F2 v) :
    expandDirectLoop F ts visited r = expandDirectLoop F2 ts visited r := by
  induction ts generalizing visited r with
  | nil => rfl
  | cons t rest ih =>
      rw [expandDirectLoop, expandDirectLoop]
      have ht : t.map (tildeOf F visited) = t.map (tildeOf F2 visited) :=
        List.map_congr_left (fun v hv => tildeOf_congr F F2 visited v
          (h v (List.mem_flatten.mpr ⟨t, List.mem_cons_self t rest, hv⟩)))
      rw [ht]
      exact ih _ _ (fun v hv => by
        rw [List.mem_flatten] at hv
        obtain ⟨l, hl, hvl⟩ := hv
        exact h v (List.mem_flatten.mpr ⟨l, List.mem_cons_of_mem t hl, hvl⟩))

theorem singleton_cluster_mem {S : List (ℕ × Table)}
    (hc : S.length = 1 ∧ (S.headI.2).length = 1) :
    S.headI.2.headI ∈ (S.map Prod.snd).flatten := by
  obtain ⟨p, rfl⟩ : ∃ p, S = [p] := by
    cases S with
    | nil => exact absurd hc.1 (by simp)
    | cons q qs =>
        cases qs with
        | nil => exact ⟨q, rfl⟩
        | cons q2 qs2 => exact absurd hc.1 (by simp)
  have h2 : p.2.length = 1 := by simpa using hc.2
  cases hp : p.2 with
  | nil => rw [hp] at h2; simp at h2
  | cons w ws =>
      cases ws with
      | nil => simp [hp]
      | cons w2 ws2 => rw [hp] at h2; simp at h2

/-! The claims. -/

/-- C4: for a cluster set with exactly one order containing exactly one
cluster, both variants return the raw callback value for that cluster with no
operator applications and no exponent or tilde bookkeeping: variant A returns
`F v allspin` directly and variant B returns `F (allnspin[v])` directly. -/
theorem claim4_single_cluster_fast_path {N : Type} [DivisionCommMonoid N] {β : Type}
    [Inhabited β] (F : List ℕ → List β → N) (Fd : List β → N) (k : ℕ) (v : List ℕ)
    (allspin : List β) :
    expand_power F [(k, [v])] allspin = F v allspin
      ∧ expand_direct Fd [(k, [v])] allspin = Fd (sel allspin v) := by
  constructor
  · simp [expand_power]
  · simp [expand_direct]

/-- C5 as stated is false at this input: on the single-cluster fast path
`expand_power` returns without clearing the memoization hook, so after a call
in which the callback wrote one cache entry the hook is not empty. -/
theorem claim5_counterexample :
    (expand_power_smc (fun _ _ c => ((1 : ℚ), 0 :: c)) [(1, [[0]])] ([] : List ℕ) []).2
      ≠ [] := by
  decide

/-- C5 amended: every invocation of `expand_power` that takes the general path
(more than one order or more than one cluster) clears the external memoization
hook exactly once before returning, leaving it empty; the single-cluster fast
path returns the callback's value without clearing the hook. -/
theorem claim5_general_path_clears_hook {N : Type} [DivisionCommMonoid N] {β : Type}
    [Inhabited β] (F : List ℕ → List β → List ℕ → N × List ℕ) (S : List (ℕ × Table))
    (allspin : List β) (smc : List ℕ)
    (hgen : ¬(S.length = 1 ∧ (S.headI.2).length = 1)) :
    (expand_power_smc F S allspin smc).2 = [] := by
  rw [expand_power_smc, if_neg hgen]

/-- Witness for C5 amended: a two-cluster input takes the general path and the
hook is empty after the call even though it started non-empty and the callback
wrote entries. -/
theorem claim5_general_path_clears_hook_witness :
    ¬(([(1, [[0], [1]])] : List (ℕ × Table)).length = 1
        ∧ (([(1, [[0], [1]])] : List (ℕ × Table)).headI.2).length = 1)
    ∧ (expand_power_smc (fun _ _ c => ((1 : ℚ), 0 :: c))
        [(1, [[0], [1]])] ([] : List ℕ) [7]).2 = [] :=
  ⟨by decide, claim5_general_path_clears_hook _ _ _ _ (by decide)⟩

/-- C6: the containment tests of both variants decide exactly set containment
on rows with pairwise-distinct entries: the variant-A test `containsA u v` is
true iff every index of the candidate `v` appears in the container `u`, the
variant-B test `containsB u v` is true iff every index of the candidate `u`
appears in the container `v`, and the batched forms return, for each row of
the tested table, that same boolean. -/
theorem claim6_containment_exact (u v : List ℕ) (t : Table)
    (hu : u.Nodup) (hv : v.Nodup) (ht : ∀ w ∈ t, w.Nodup) :
    (containsA u v = true ↔ v ⊆ u)
    ∧ (containsB u v = true ↔ u ⊆ v)
    ∧ (∀ k, k < t.length →
        ((containsBatchA t v).getD k false = true ↔ v ⊆ t.getD k [])
        ∧ ((containsBatchB t v).getD k false = true ↔ t.getD k [] ⊆ v)) := by
  refine ⟨containsA_iff hu hv, containsB_iff, ?_⟩
  intro k hk
  have hmem : t.getD k [] ∈ t := by
    rw [List.getD_eq_getElem _ _ hk]
    exact List.getElem_mem hk
  have hg1 : (containsBatchA t v).getD k false = containsA (t.getD k []) v := by
    rw [containsBatchA, List.getD_eq_getElem _ _ (by simpa using hk),
      List.getElem_map, List.getD_eq_getElem _ _ hk]
  have hg2 : (containsBatchB t v).getD k false = containsB (t.getD k []) v := by
    rw [containsBatchB, List.getD_eq_getElem _ _ (by simpa using hk),
      List.getElem_map, List.getD_eq_getElem _ _ hk]
  rw [hg1, hg2]
  exact ⟨containsA_iff (ht _ hmem) hv, containsB_iff⟩

/-- Witness for C6 at concrete rows and a concrete table. -/
theorem claim6_containment_exact_witness :
    ([0, 1, 2] : List ℕ).Nodup ∧ ([0, 1] : List ℕ).Nodup
    ∧ (∀ w ∈ ([[0, 1, 2], [3]] : Table), w.Nodup)
    ∧ ((containsA [0, 1, 2] [0, 1] = true ↔ [0, 1] ⊆ [0, 1, 2])
       ∧ (containsB [0, 1, 2] [0, 1] = true ↔ [0, 1, 2] ⊆ [0, 1])
       ∧ (∀ k, k < ([[0, 1, 2], [3]] : Table).length →
           ((containsBatchA [[0, 1, 2], [3]] [0, 1]).getD k false = true
              ↔ [0, 1] ⊆ ([[0, 1, 2], [3]] : Table).getD k [])
           ∧ ((containsBatchB [[0, 1, 2], [3]] [0, 1]).getD k false = true
              ↔ ([[0, 1, 2], [3]] : Table).getD k [] ⊆ [0, 1]))) :=
  ⟨by decide, by decide, by decide,
    claim6_containment_exact [0, 1, 2] [0, 1] [[0, 1, 2], [3]]
      (by decide) (by decide) (by decide)⟩

/-- C7: for the cluster set with order-2 cluster `{0,1}` (contribution 4) and
order-1 clusters `{0}`, `{1}` (contributions 2 and 3) under the default
multiplicative algebra, variant A assigns exponent 0 to both order-1 clusters
and both variants return exactly 4. -/
theorem claim7_no_double_counting :
    expand_power
        (fun v _ => if v = [0, 1] then (4 : ℚ) else if v = [0] then 2
          else if v = [1] then 3 else 1)
        [(1, [[0], [1]]), (2, [[0, 1]])] ([10, 20] : List ℕ) = 4
    ∧ expand_direct
        (fun a => if a = [10, 20] then (4 : ℚ) else if a = [10] then 2
          else if a = [20] then 3 else 1)
        [(1, [[0], [1]]), (2, [[0, 1]])] ([10, 20] : List ℕ) = 4
    ∧ ((buildPow ((([(1, [[0], [1]]), (2, [[0, 1]])] : List (ℕ × Table)).map
          Prod.snd).reverse) []).getD 1 ([], [])).2 = [0, 0] := by
  refine ⟨?_, ?_, by decide⟩
  · simp [expand_power, expandPowerLoop, powerOf, containsA]
  · simp [expand_direct, expandDirectLoop, tildeOf, sel, containsB]
    norm_num

/-- C8: for two disjoint singleton clusters with contributions `a` and `b`
under the default multiplicative algebra, variant A assigns exponent 1 to both
clusters and both variants return `a * b`. -/
theorem claim8_disjoint_composition (a b : ℚ) :
    expand_power (fun v _ => if v = [0] then a else b)
        [(1, [[0], [1]])] ([10, 20] : List ℕ) = a * b
    ∧ expand_direct (fun w => if w = [10] then a else b)
        [(1, [[0], [1]])] ([10, 20] : List ℕ) = a * b
    ∧ ((buildPow ([[[0], [1]]] : List Table) []).getD 0 ([], [])).2 = [1, 1] := by
  refine ⟨?_, ?_, by decide⟩
  · simp [expand_power, expandPowerLoop, powerOf]
  · simp [expand_direct, expandDirectLoop, tildeOf, sel]

/-- C10: the two variants present different interfaces to the callback.
Variant A invokes it with the raw index row and the full spin array (fast and
general path alike), so its result depends on the callback only through its
values at pairs of a cluster row and the full array; variant B invokes it only
with the pre-indexed sub-array `allnspin[v]`, so its result depends on the
callback and the spin array only through the composite at the sub-arrays of
the cluster rows — in particular two spin arrays with the same sub-arrays are
indistinguishable to variant B. -/
theorem claim10_callback_interfaces {N : Type} [DivisionCommMonoid N] {β : Type}
    [Inhabited β] (F F2 : List ℕ → List β → N) (Fd Fd2 : List β → N)
    (S : List (ℕ × Table)) (allspin alln alln2 : List β)
    (hA : ∀ v ∈ (S.map Prod.snd).flatten, F v allspin = F2 v allspin)
    (hB : ∀ v ∈ (S.map Prod.snd).flatten, Fd (sel alln v) = Fd2 (sel alln2 v)) :
    expand_power F S allspin = expand_power F2 S allspin
    ∧ expand_direct Fd S alln = expand_direct Fd2 S alln2 := by
  constructor
  · rw [expand_power, expand_power]
    by_cases hc : S.length = 1 ∧ (S.headI.2).length = 1
    · rw [if_pos hc, if_pos hc]
      exact hA _ (singleton_cluster_mem hc)
    · rw [if_neg hc, if_neg hc]
      congr 1
      apply expandPowerLoop_congr
      intro v hv
      rw [List.mem_flatten] at hv
      obtain ⟨l, hl, hvl⟩ := hv
      exact hA v (List.mem_flatten.mpr ⟨l, List.mem_reverse.mp hl, hvl⟩)
  · rw [expand_direct, expand_direct]
    by_cases hc : S.length = 1 ∧ (S.headI.2).length = 1
    · rw [if_pos hc, if_pos hc]
      exact hB _ (singleton_cluster_mem hc)
    · rw [if_neg hc, if_neg hc]
      congr 1
      exact expandDirectLoop_congr _ _ _ _ _ (fun v hv => hB v hv)

/-! Infrastructure for the equivalence of the two variants: positions of
clusters, reversal of the processing order, and the recurrences of the
closed-form exponent, tilde and mixing coefficients. -/

/-- C2: on the general path, variant B processes the tables in strictly
ascending key order, the tilde row stored for the `k`-th processed table is
obtained by applying `tildeOf` to the already-stored entries — i.e. each
cluster `v` receives its raw callback contribution from which, for each
strictly lower already-processed order in turn, the product
(`addition_operator`) of the stored tilde values of that order's rows fully
contained in `v` is divided out (`removal_operator`) cumulatively — and the
overall result is the fold of all stored tilde values into the seed via
`result_operator` (multiplication). -/
theorem claim2_direct_tilde_recurrence {N : Type} [DivisionCommMonoid N] {β : Type}
    [Inhabited β] (F : List β → N) (S : List (ℕ × Table)) (allnspin : List β)
    (hgen : ¬(S.length = 1 ∧ (S.headI.2).length = 1))
    (hsorted : (S.map Prod.fst).Pairwise (· < ·)) :
    (S.map Prod.fst).Pairwise (· < ·)
    ∧ expand_direct F S allnspin
        = (expandDirectLoop (fun v => F (sel allnspin v)) (S.map Prod.snd) [] 1).2
    ∧ (expandDirectLoop (fun v => F (sel allnspin v)) (S.map Prod.snd) [] 1).1
        = buildTilde (fun v => F (sel allnspin v)) (S.map Prod.snd) []
    ∧ (buildTilde (fun v => F (sel allnspin v)) (S.map Prod.snd) []).map Prod.fst
        = S.map Prod.snd
    ∧ (∀ k, k < (S.map Prod.snd).length →
        (buildTilde (fun v => F (sel allnspin v)) (S.map Prod.snd) []).getD k ([], [])
          = ((S.map Prod.snd).getD k [],
             ((S.map Prod.snd).getD k []).map
               (tildeOf (fun v => F (sel allnspin v))
                 ((buildTilde (fun v => F (sel allnspin v)) (S.map Prod.snd) []).take k))))
    ∧ expand_direct F S allnspin
        = ((buildTilde (fun v => F (sel allnspin v)) (S.map Prod.snd) []).map
            (fun tp => tp.2.prod)).prod := by
  have hfst := expandDirectLoop_fst (fun v => F (sel allnspin v)) (S.map Prod.snd) [] (1 : N)
  have hd : expand_direct F S allnspin
      = (expandDirectLoop (fun v => F (sel allnspin v)) (S.map Prod.snd) [] 1).2 := by
    rw [expand_direct, if_neg hgen]
  refine ⟨hsorted, hd, hfst, ?_, ?_, ?_⟩
  · have h := buildAux_map_fst (fun vis t => t.map (tildeOf (fun v => F (sel allnspin v)) vis))
      (S.map Prod.snd) []
    simpa [buildTilde] using h
  · intro k hk
    have h := buildAux_getD (fun visited t => (t, t.map (tildeOf (fun v => F (sel allnspin v))
        visited))) (S.map Prod.snd) [] k hk ([], [])
    simpa [buildTilde] using h
  · rw [hd, expandDirectLoop_snd]
    simp

/-- Witness for C2 at a concrete two-cluster, two-order input. -/
theorem claim2_direct_tilde_recurrence_witness :
    (¬(([(1, [[0], [1]]), (2, [[0, 1]])] : List (ℕ × Table)).length = 1
        ∧ ((([(1, [[0], [1]]), (2, [[0, 1]])] : List (ℕ × Table)).headI.2)).length = 1))
    ∧ ((([(1, [[0], [1]]), (2, [[0, 1]])] : List (ℕ × Table)).map Prod.fst).Pairwise (· < ·))
    ∧ (((([(1, [[0], [1]]), (2, [[0, 1]])] : List (ℕ × Table)).map Prod.fst).Pairwise (· < ·))
       ∧ expand_direct (fun w => (w.length : ℚ)) [(1, [[0], [1]]), (2, [[0, 1]])] ([5, 6] : List ℕ)
          = (expandDirectLoop (fun v => (fun (w : List ℕ) => (w.length : ℚ)) (sel [5, 6] v))
              (([(1, [[0], [1]]), (2, [[0, 1]])] : List (ℕ × Table)).map Prod.snd) [] 1).2
       ∧ (expandDirectLoop (fun v => (fun (w : List ℕ) => (w.length : ℚ)) (sel [5, 6] v))
            (([(1, [[0], [1]]), (2, [[0, 1]])] : List (ℕ × Table)).map Prod.snd) [] 1).1
          = buildTilde (fun v => (fun (w : List ℕ) => (w.length : ℚ)) (sel [5, 6] v))
              (([(1, [[0], [1]]), (2, [[0, 1]])] : List (ℕ × Table)).map Prod.snd) []
       ∧ (buildTilde (fun v => (fun (w : List ℕ) => (w.length : ℚ)) (sel [5, 6] v))
            (([(1, [[0], [1]]), (2, [[0, 1]])] : List (ℕ × Table)).map Prod.snd) []).map
            Prod.fst
          = ([(1, [[0], [1]]), (2, [[0, 1]])] : List (ℕ × Table)).map Prod.snd
       ∧ (∀ k, k < (([(1, [[0], [1]]), (2, [[0, 1]])] : List (ℕ × Table)).map
            Prod.snd).length →
            (buildTilde (fun v => (fun (w : List ℕ) => (w.length : ℚ)) (sel [5, 6] v))
                (([(1, [[0], [1]]), (2, [[0, 1]])] : List (ℕ × Table)).map Prod.snd) []).getD
                k ([], [])
              = ((([(1, [[0], [1]]), (2, [[0, 1]])] : List (ℕ × Table)).map Prod.snd).getD
                  k [],
                 ((([(1, [[0], [1]]), (2, [[0, 1]])] : List (ℕ × Table)).map Prod.snd).getD
                    k []).map
                   (tildeOf (fun v => (fun (w : List ℕ) => (w.length : ℚ)) (sel [5, 6] v))
                     ((buildTilde (fun v => (fun (w : List ℕ) => (w.length : ℚ))
                        (sel [5, 6] v))
                        (([(1, [[0], [1]]), (2, [[0, 1]])] : List (ℕ × Table)).map
                          Prod.snd) []).take k))))
       ∧ expand_direct (fun w => (w.length : ℚ)) [(1, [[0], [1]]), (2, [[0, 1]])]
            ([5, 6] : List ℕ)
          = ((buildTilde (fun v => (fun (w : List ℕ) => (w.length : ℚ)) (sel [5, 6] v))
              (([(1, [[0], [1]]), (2, [[0, 1]])] : List (ℕ × Table)).map Prod.snd) []).map
              (fun tp => tp.2.prod)).prod) :=
  ⟨by decide, by decide,
    claim2_direct_tilde_recurrence (fun w => (w.length : ℚ)) [(1, [[0], [1]]), (2, [[0, 1]])]
      ([5, 6] : List ℕ) (by decide) (by decide)⟩

/-- Witness for C10: syntactically different callbacks agreeing on the cluster
rows, and two spin arrays (one with a trailing default entry) with the same
sub-arrays, give identical results. -/
theorem claim10_callback_interfaces_witness :
    (∀ v ∈ (([(1, [[0], [1]])] : List (ℕ × Table)).map Prod.snd).flatten,
        (fun (v : List ℕ) (_ : List ℕ) => ((v.length : ℚ))) v [5, 6]
          = (fun (v : List ℕ) (_ : List ℕ) => if v.length ≤ 2 then (v.length : ℚ) else 0) v [5, 6])
    ∧ (∀ v ∈ (([(1, [[0], [1]])] : List (ℕ × Table)).map Prod.snd).flatten,
        (fun (w : List ℕ) => ((w.sum : ℚ))) (sel [1, 2] v)
          = (fun (w : List ℕ) => ((w.sum : ℚ))) (sel [1, 2, 0] v))
    ∧ (expand_power (fun (v : List ℕ) (_ : List ℕ) => ((v.length : ℚ))) [(1, [[0], [1]])] [5, 6]
        = expand_power (fun (v : List ℕ) (_ : List ℕ) =>
            if v.length ≤ 2 then (v.length : ℚ) else 0) [(1, [[0], [1]])] [5, 6]
       ∧ expand_direct (fun (w : List ℕ) => ((w.sum : ℚ))) [(1, [[0], [1]])] [1, 2]
        = expand_direct (fun (w : List ℕ) => ((w.sum : ℚ))) [(1, [[0], [1]])] [1, 2, 0]) :=
  ⟨by decide, by decide,
    claim10_callback_interfaces _ _ _ _ [(1, [[0], [1]])] [5, 6] [1, 2] [1, 2, 0]
      (by decide) (by decide)⟩

end PyCCE
